import Mathlib

/-!
Verification of the fbhash similarity engine against its specification.

The definitions below are shallow embeddings of the Rust sources:
* `src/fbhash/chunker.rs`      — rolling polynomial chunk hasher
* `src/fbhash/heap.rs`         — bounded top-k max-heap
* `src/fbhash/similarities.rs` — corpus model, digest builder, cosine similarity
* `src/fbhash/query.rs`        — consistency check and result ordering

Machine integers (`u64`, `usize`) are modelled as `Nat` with explicit
`% 2^64` where the Rust code wraps; `f64` scores and weights are modelled
as real numbers (`ℝ`) for the transcendental weight formula, and as `ℚ`
where only the ordering of finitely many finite floats matters (every
finite set of finite `f64` values embeds order-preservingly into `ℚ`).
-/

namespace Fbhash

/-! ## Chunker (`src/fbhash/chunker.rs`) -/

/-- Constant `CHUNK_SIZE` from chunker.rs: the window size W. -/
def CHUNK_SIZE : Nat := 7

/-- Constant `A` from chunker.rs: the polynomial base. -/
def A : Nat := 255

/-- Constant `MODULUS` from chunker.rs. -/
def MODULUS : Nat := 801385653117583579

/-- The constant `2^64`, the wrap-around modulus of Rust `u64` arithmetic. -/
def U64 : Nat := 18446744073709551616

/-- Constant `max_a` as set up by `ChunkContent::new()`: `A.pow(CHUNK_SIZE)`. -/
def max_a : Nat := A ^ CHUNK_SIZE

/-- Rust `u64::wrapping_sub` on already-reduced arguments:
`a.wrapping_sub(b) = (a + 2^64 - b) mod 2^64`. -/
def wrappingSub (a b : Nat) : Nat := (a % U64 + (U64 - b % U64)) % U64

/-- Function `ChunkContent::rehash_digest`:
`((A * digest).wrapping_sub(b_i * self.max_a) + b_k) % MODULUS`.
The multiplications and the addition are Rust release-mode `u64`
arithmetic, hence reduced `% 2^64`. -/
def rehash_digest (digest old_byte new_byte : Nat) : Nat :=
  ((wrappingSub (A * digest % U64) (old_byte * max_a % U64) + new_byte) % U64) % MODULUS

/-- The loop body of `ChunkContent::compute_digest`: fold over the window
content with `h = (h + elem * A.pow(k - 1)) % MODULUS; k -= 1`. -/
def computeDigestAux : List Nat → Nat → Nat → Nat
  | [], _, h => h
  | e :: rest, k, h => computeDigestAux rest (k - 1) ((h + e * A ^ (k - 1)) % MODULUS)

/-- Function `ChunkContent::compute_digest`, starting with `h = 0`, `k = CHUNK_SIZE`. -/
def compute_digest (content : List Nat) : Nat := computeDigestAux content CHUNK_SIZE 0

/-- Mathematical value of the window polynomial `Σ b_i * A^(W-1-i)`
(no modular reduction). -/
def wsum : List Nat → Nat
  | [] => 0
  | e :: rest => e * A ^ rest.length + wsum rest

theorem wsum_lt_pow (c : List Nat) (hb : ∀ x ∈ c, x < 256) :
    wsum c < 256 ^ c.length := by
  induction c with
  | nil => simp [wsum]
  | cons e rest ih =>
    have he : e ≤ 255 := Nat.lt_succ_iff.mp (hb e (List.mem_cons_self _ _))
    have hr : wsum rest < 256 ^ rest.length :=
      ih (fun x hx => hb x (List.mem_cons_of_mem _ hx))
    have hA : A ^ rest.length ≤ 256 ^ rest.length :=
      Nat.pow_le_pow_left (by norm_num [A]) _
    have h1 : e * A ^ rest.length ≤ 255 * 256 ^ rest.length :=
      Nat.mul_le_mul he hA
    calc wsum (e :: rest) = e * A ^ rest.length + wsum rest := rfl
      _ < 255 * 256 ^ rest.length + 256 ^ rest.length := by omega
      _ = 256 ^ (rest.length + 1) := by ring
      _ = 256 ^ (e :: rest).length := by simp

theorem computeDigestAux_eq (c : List Nat) :
    ∀ h : Nat, h + wsum c < MODULUS → computeDigestAux c c.length h = h + wsum c := by
  induction c with
  | nil => intro h _; simp [computeDigestAux, wsum]
  | cons e rest ih =>
    intro h hlt
    have hw : wsum (e :: rest) = e * A ^ rest.length + wsum rest := rfl
    have hstep : (h + e * A ^ rest.length) % MODULUS = h + e * A ^ rest.length := by
      apply Nat.mod_eq_of_lt
      omega
    have hlen : (e :: rest).length - 1 = rest.length := by simp
    calc computeDigestAux (e :: rest) (e :: rest).length h
        = computeDigestAux rest ((e :: rest).length - 1)
            ((h + e * A ^ ((e :: rest).length - 1)) % MODULUS) := rfl
      _ = computeDigestAux rest rest.length ((h + e * A ^ rest.length) % MODULUS) := by
            rw [hlen]
      _ = computeDigestAux rest rest.length (h + e * A ^ rest.length) := by rw [hstep]
      _ = h + e * A ^ rest.length + wsum rest := ih _ (by omega)
      _ = h + wsum (e :: rest) := by rw [hw]; ring

theorem compute_digest_eq_wsum (c : List Nat) (hlen : c.length = CHUNK_SIZE)
    (hb : ∀ x ∈ c, x < 256) : compute_digest c = wsum c := by
  have hlt : wsum c < 256 ^ c.length := wsum_lt_pow c hb
  have hmod : (256 : Nat) ^ CHUNK_SIZE < MODULUS := by norm_num [CHUNK_SIZE, MODULUS]
  rw [hlen] at hlt
  have := computeDigestAux_eq c 0 (by omega)
  rw [hlen] at this
  simpa [compute_digest] using this

theorem wsum_append_single (xs : List Nat) (y : Nat) :
    wsum (xs ++ [y]) = A * wsum xs + y := by
  induction xs with
  | nil => simp [wsum]
  | cons x xs ih =>
    have hlen : (xs ++ [y]).length = xs.length + 1 := by simp
    calc wsum ((x :: xs) ++ [y]) = x * A ^ (xs ++ [y]).length + wsum (xs ++ [y]) := rfl
      _ = x * A ^ (xs.length + 1) + (A * wsum xs + y) := by rw [hlen, ih]
      _ = A * (x * A ^ xs.length + wsum xs) + y := by ring
      _ = A * wsum (x :: xs) + y := rfl

theorem wrappingSub_of_le (a b : Nat) (hba : b ≤ a) (ha : a < U64) :
    wrappingSub a b = a - b := by
  unfold wrappingSub
  rw [Nat.mod_eq_of_lt ha, Nat.mod_eq_of_lt (lt_of_le_of_lt hba ha)]
  have h1 : a + (U64 - b) = (a - b) + U64 := by omega
  rw [h1, Nat.add_mod_right, Nat.mod_eq_of_lt (by omega)]

theorem rolling_update_eq_direct (b0 : Nat) (rest : List Nat) (bnew : Nat)
    (hb0 : b0 < 256) (hrest : ∀ x ∈ rest, x < 256) (hbnew : bnew < 256)
    (hlen : rest.length = 6) :
    rehash_digest (compute_digest (b0 :: rest)) b0 bnew = compute_digest (rest ++ [bnew]) := by
  have hballs : ∀ x ∈ b0 :: rest, x < 256 := by
    intro x hx
    rcases List.mem_cons.mp hx with h | h
    · omega
    · exact hrest x h
  have hlen7 : (b0 :: rest).length = CHUNK_SIZE := by simp [hlen, CHUNK_SIZE]
  have hS : compute_digest (b0 :: rest) = wsum (b0 :: rest) :=
    compute_digest_eq_wsum _ hlen7 hballs
  have hSsplit : wsum (b0 :: rest) = b0 * A ^ 6 + wsum rest := by
    show b0 * A ^ rest.length + wsum rest = b0 * A ^ 6 + wsum rest
    rw [hlen]
  have hwr : wsum rest < 256 ^ 6 := by
    have := wsum_lt_pow rest hrest
    rwa [hlen] at this
  have hSlt : wsum (b0 :: rest) < 256 ^ 7 := by
    have := wsum_lt_pow _ hballs
    rwa [hlen7] at this
  have hpow7 : (256 : Nat) ^ 7 = 72057594037927936 := by norm_num
  have hpow6 : (256 : Nat) ^ 6 = 281474976710656 := by norm_num
  have hA : A = 255 := rfl
  have hU : U64 = 18446744073709551616 := rfl
  have hM : MODULUS = 801385653117583579 := rfl
  have hmaxa : max_a = 70110209207109375 := by decide
  rw [hpow7] at hSlt
  rw [hpow6] at hwr
  have hAS : A * wsum (b0 :: rest) < U64 := by
    rw [hA, hU]; omega
  have hbmax : b0 * max_a < U64 := by
    rw [hmaxa, hU]
    have : b0 * 70110209207109375 ≤ 255 * 70110209207109375 :=
      Nat.mul_le_mul_right _ (by omega)
    omega
  have hsub : b0 * max_a ≤ A * wsum (b0 :: rest) := by
    rw [hSsplit, Nat.mul_add]
    have : b0 * max_a = A * (b0 * A ^ 6) := by
      unfold max_a A CHUNK_SIZE
      ring
    rw [this]
    exact Nat.le_add_right _ _
  have hdiff : A * wsum (b0 :: rest) - b0 * max_a = A * wsum rest := by
    rw [hSsplit, Nat.mul_add]
    have : b0 * max_a = A * (b0 * A ^ 6) := by
      unfold max_a A CHUNK_SIZE
      ring
    omega
  have hres_lt : A * wsum rest + bnew < MODULUS := by
    rw [hA, hM]; omega
  have hres_ltU : A * wsum rest + bnew < U64 := by
    rw [hA, hU]; omega
  rw [hS]
  unfold rehash_digest
  rw [Nat.mod_eq_of_lt hAS, Nat.mod_eq_of_lt hbmax,
    wrappingSub_of_le _ _ hsub hAS, hdiff, Nat.mod_eq_of_lt hres_ltU,
    Nat.mod_eq_of_lt hres_lt]
  have hlen' : (rest ++ [bnew]).length = CHUNK_SIZE := by simp [hlen, CHUNK_SIZE]
  have hballs' : ∀ x ∈ rest ++ [bnew], x < 256 := by
    intro x hx
    rcases List.mem_append.mp hx with h | h
    · exact hrest x h
    · simp at h; omega
  rw [compute_digest_eq_wsum _ hlen' hballs', wsum_append_single]

/-! ## ChunkIterator (`src/fbhash/chunker.rs`)

The iterator is modelled as the full list of `(number, digest)` chunks
produced for an input byte stream (the file contents as a `List Nat`).
The first `next()` always succeeds: `file.read` on a zero-prefilled
7-byte buffer returns the first `min 7 L` bytes, the rest of the buffer
staying zero, and `setup` hashes that buffer.  Every later `next()` reads
one byte and calls `ChunkContent::update`, which shifts the window left,
appends the new byte and rehashes incrementally; it stops at EOF. -/

/-- The initial 7-byte window: the first `min 7 L` file bytes followed by
the untouched zero fill of `initial_content`. -/
def initWindow (file : List Nat) : List Nat :=
  (file ++ List.replicate CHUNK_SIZE 0).take CHUNK_SIZE

/-- The chunks emitted by the repeated-`next()` loop after the initial
chunk, mirroring `ChunkContent::update` for each further byte read. -/
def chunkSeq : List Nat → Nat → Nat → List Nat → List (Nat × Nat)
  | _, _, _, [] => []
  | content, number, digest, b :: bs =>
    let first_byte := content.headD 0
    let content' := content.tail ++ [b]
    let digest' := rehash_digest digest first_byte b
    (number + 1, digest') :: chunkSeq content' (number + 1) digest' bs

/-- All chunks produced by draining a `ChunkIterator` over `file`. -/
def runChunker (file : List Nat) : List (Nat × Nat) :=
  let w := initWindow file
  let d0 := compute_digest w
  (0, d0) :: chunkSeq w 0 d0 (file.drop CHUNK_SIZE)

theorem chunkSeq_length (bs : List Nat) :
    ∀ content number digest, (chunkSeq content number digest bs).length = bs.length := by
  induction bs with
  | nil => intro content number digest; rfl
  | cons b bs ih =>
    intro content number digest
    simp only [chunkSeq, List.length_cons]
    rw [ih]

theorem runChunker_length (file : List Nat) :
    (runChunker file).length = 1 + (file.length - CHUNK_SIZE) := by
  simp only [runChunker, List.length_cons, chunkSeq_length, List.length_drop]
  omega

theorem initWindow_of_short (file : List Nat) (h : file.length ≤ CHUNK_SIZE) :
    initWindow file = file ++ List.replicate (CHUNK_SIZE - file.length) 0 := by
  unfold initWindow
  rw [List.take_append_eq_append_take, List.take_of_length_le h, List.take_replicate]
  congr 1
  simp [CHUNK_SIZE] at h ⊢

theorem compute_digest_zeros : compute_digest (List.replicate CHUNK_SIZE 0) = 0 := by decide

/-! ## Bounded top-k heap (`src/fbhash/heap.rs`)

`Heap.data` models the Rust `Vec<Option<(f64, &T)>>` with its always-`None`
sentinel at index 0 removed: list index `i` is Rust vector index `i + 1`,
so `Heap::len() = data.len() - 1` is just the list length.  Scores live in
a linear order `α` (instantiated at `ℚ` or `ℝ`): the heap only compares
scores, so any order-embedding of the finitely many finite `f64` scores is
faithful.  The sift loops carry a fuel argument that strictly exceeds the
number of iterations of the corresponding Rust `while` loop (the 1-based
index at least halves towards 0, respectively at least doubles towards
`len`, on every iteration, so `len` iterations are never reached). -/

structure Heap (α β : Type) where
  data : List (α × β)
  capacity : Nat

namespace Heap

/-- Function `Heap::new(capacity)`: `data = vec![None]`, i.e. no payload entries. -/
def new {α β : Type} (capacity : Nat) : Heap α β := ⟨[], capacity⟩

/-- Function `Heap::len`. -/
def len {α β : Type} (h : Heap α β) : Nat := h.data.length

variable {α β : Type} [LinearOrder α] [Inhabited α]

/-- Function `Heap::at_idx` (1-based index, score component). -/
def at_idx (d : List (α × β)) (i : Nat) : α :=
  ((d.get? (i - 1)).map Prod.fst).getD default

/-- Function `Vec::swap` on 1-based indices; out-of-range indices (which panic in
Rust and are unreachable here) leave the list unchanged. -/
def swap1 (d : List (α × β)) (i j : Nat) : List (α × β) :=
  match d.get? (i - 1), d.get? (j - 1) with
  | some x, some y => (d.set (i - 1) y).set (j - 1) x
  | _, _ => d

/-- The `while` loop of `Heap::heapify` (sift-up): `l` is 1-based,
`p = l / 2`, loop while `p > 0 && at_idx(p) < at_idx(l)`. -/
def siftUp (d : List (α × β)) (l : Nat) : Nat → List (α × β)
  | 0 => d
  | fuel + 1 =>
    if 0 < l / 2 ∧ at_idx d (l / 2) < at_idx d l then
      siftUp (swap1 d l (l / 2)) (l / 2) fuel
    else d

/-- Function `Heap::heapify`: sift up from the last element `l = data.len() - 1`. -/
def heapify (h : Heap α β) : Heap α β :=
  { h with data := siftUp h.data h.data.length h.data.length }

/-- Function `Heap::get_max`. -/
def get_max (h : Heap α β) : Option α := h.data.head?.map Prod.fst

/-- The rebalancing `while` loop of `Heap::extract_max` (sift-down), with
its original loop conditions: note `child < self.len()` (strict), which
never lets the last element at 1-based index `len` act as a child.
The larger child is picked by `chooseChild`, mirroring the in-loop
`child += 1` adjustment. -/
def chooseChild (d : List (α × β)) (idx : Nat) : Nat :=
  if 2 * idx + 1 < d.length ∧ at_idx d (2 * idx) < at_idx d (2 * idx + 1) then
    2 * idx + 1
  else 2 * idx

/-- The rebalancing loop body of `Heap::extract_max`. -/
def siftDown (d : List (α × β)) (idx : Nat) : Nat → List (α × β)
  | 0 => d
  | fuel + 1 =>
    if (2 * idx < d.length ∧ at_idx d idx < at_idx d (2 * idx)) ∨
        (2 * idx + 1 < d.length ∧ at_idx d idx < at_idx d (2 * idx + 1)) then
      siftDown (swap1 d idx (chooseChild d idx)) (chooseChild d idx) fuel
    else d

/-- In `Heap::extract_max`: `data.pop()` followed by `data[1] = x`. -/
def popToRoot (d : List (α × β)) : List (α × β) :=
  match d.getLast? with
  | some x => d.dropLast.set 0 x
  | none => d.dropLast

/-- Function `Heap::extract_max`, state part (the returned maximum is ignored by
`insert`, the only internal caller): pop the last element, move it to the
root, then rebalance. -/
def extract_max (h : Heap α β) : Heap α β :=
  if h.data.length ≤ 1 then { h with data := h.data.dropLast }
  else { h with data := siftDown (popToRoot h.data) 1 (popToRoot h.data).length }

/-- Function `Heap::insert`. -/
def insert (h : Heap α β) (f : α) (item : β) : Heap α β :=
  if h.data.length = 0 then { h with data := h.data ++ [(f, item)] }
  else if h.data.length < h.capacity then
    heapify { h with data := h.data ++ [(f, item)] }
  else
    match get_max h with
    | some m =>
      if f < m then
        heapify { extract_max h with data := (extract_max h).data ++ [(f, item)] }
      else h
    | none => h

/-- Function `Heap::get_elements`: the stored pairs sorted ascending by score
(Rust `sort_by` is a stable sort; so is `List.insertionSort`). -/
def get_elements (h : Heap α β) : List (α × β) :=
  h.data.insertionSort (fun p q => p.1 ≤ q.1)

/-- Fold a list of `(score, payload)` insertions into a heap. -/
def insertAll (h : Heap α β) (xs : List (α × β)) : Heap α β :=
  xs.foldl (fun h p => h.insert p.1 p.2) h

omit [LinearOrder α] [Inhabited α] in
theorem swap1_length (d : List (α × β)) (i j : Nat) :
    (swap1 d i j).length = d.length := by
  unfold swap1
  rcases h1 : d.get? (i - 1) with _ | x <;> rcases h2 : d.get? (j - 1) with _ | y <;> simp

theorem siftUp_length (fuel : Nat) :
    ∀ (d : List (α × β)) (l : Nat), (siftUp d l fuel).length = d.length := by
  induction fuel with
  | zero => intro d l; rfl
  | succ fuel ih =>
    intro d l
    unfold siftUp
    split
    · rw [ih, swap1_length]
    · rfl

theorem siftDown_length (fuel : Nat) :
    ∀ (d : List (α × β)) (idx : Nat), (siftDown d idx fuel).length = d.length := by
  induction fuel with
  | zero => intro d idx; rfl
  | succ fuel ih =>
    intro d idx
    unfold siftDown
    split
    · rw [ih, swap1_length]
    · rfl

theorem heapify_length (h : Heap α β) : (heapify h).data.length = h.data.length := by
  unfold heapify
  exact siftUp_length _ _ _

omit [LinearOrder α] [Inhabited α] in
theorem popToRoot_length (d : List (α × β)) :
    (popToRoot d).length = d.length - 1 := by
  unfold popToRoot
  rcases hg : d.getLast? with _ | x <;> simp

theorem extract_max_length (h : Heap α β) :
    (extract_max h).data.length = h.data.length - 1 := by
  unfold extract_max
  split
  · simp
  · simp [siftDown_length, popToRoot_length]

theorem heapify_capacity (h : Heap α β) : (heapify h).capacity = h.capacity := rfl

theorem extract_max_capacity (h : Heap α β) :
    (extract_max h).capacity = h.capacity := by
  unfold extract_max
  split <;> rfl

theorem insert_capacity (h : Heap α β) (f : α) (x : β) :
    (insert h f x).capacity = h.capacity := by
  unfold insert
  split
  · rfl
  · split
    · rfl
    · rcases hg : get_max h with _ | m
      · rfl
      · simp only
        split
        · rw [heapify_capacity, extract_max_capacity]
        · rfl

theorem insert_length (h : Heap α β) (f : α) (x : β) :
    (insert h f x).data.length =
      if h.data.length = 0 then 1
      else if h.data.length < h.capacity then h.data.length + 1
      else h.data.length := by
  unfold insert
  by_cases h0 : h.data.length = 0
  · rw [if_pos h0, if_pos h0]
    simp [h0]
  · rw [if_neg h0, if_neg h0]
    by_cases hc : h.data.length < h.capacity
    · rw [if_pos hc, if_pos hc, heapify_length]
      simp
    · rw [if_neg hc, if_neg hc]
      rcases hg : get_max h with _ | m
      · simp only [hg]
      · simp only [hg]
        by_cases hf : f < m
        · rw [if_pos hf, heapify_length]
          simp only [List.length_append, List.length_cons, List.length_nil,
            extract_max_length]
          omega
        · rw [if_neg hf]

theorem insert_length_le (h : Heap α β) (f : α) (x : β) :
    (insert h f x).data.length ≤ max h.capacity (max h.data.length 1) := by
  rw [insert_length, Nat.max_def, Nat.max_def]
  split_ifs <;> omega

theorem insertAll_length_le (xs : List (α × β)) :
    ∀ h : Heap α β, h.data.length ≤ max h.capacity 1 →
      (insertAll h xs).data.length ≤ max h.capacity 1 := by
  induction xs with
  | nil => intro h hh; exact hh
  | cons p xs ih =>
    intro h hh
    have hcap : (h.insert p.1 p.2).capacity = h.capacity := insert_capacity h p.1 p.2
    have hlen : (h.insert p.1 p.2).data.length ≤ max h.capacity 1 := by
      have h1 := insert_length_le h p.1 p.2
      have h2 : max h.data.length 1 ≤ max h.capacity 1 :=
        max_le hh (le_max_right _ _)
      exact le_trans h1 (max_le (le_max_left _ _) h2)
    have := ih (h.insert p.1 p.2) (by rw [hcap]; exact hlen)
    rw [hcap] at this
    exact this

end Heap

/-! ## Corpus model and digest builder (`src/fbhash/similarities.rs`)

`collection_digests` is a `BTreeMap<u64, usize>`; it is modelled as an
association list of `(chunk, count)` pairs.  `BTreeMap::get` is
first-match lookup, `BTreeMap::len()` is the list length (for a `BTreeMap`
the keys are distinct, so this is the number of distinct chunks `N`).
`f64` weights are modelled as real numbers; `f64::log10` is `Real.logb 10`. -/

/-- One `hmf.entry(&chunk).and_modify(|e| *e += 1).or_insert(1)` step of
`compute_document_frequencies` on the ordered-map model: increment the
count of `c`, inserting `(c, 1)` at its key-ordered position if absent. -/
def insertIncr : List (Nat × Nat) → Nat → List (Nat × Nat)
  | [], c => [(c, 1)]
  | (k, v) :: rest, c =>
    if c < k then (c, 1) :: (k, v) :: rest
    else if c = k then (k, v + 1) :: rest
    else (k, v) :: insertIncr rest c

/-- Function `compute_document_frequencies`: the `BTreeMap` of per-chunk occurrence
counts of `doc`, as a key-sorted association list. -/
def compute_document_frequencies (doc : List Nat) : List (Nat × Nat) :=
  doc.foldl insertIncr []

/-- Function `BTreeMap::get(&chunk)`: first-match lookup in the association-list
model of the map. -/
def lookupKey : List (Nat × Nat) → Nat → Option Nat
  | [], _ => none
  | (k, v) :: rest, c => if c = k then some v else lookupKey rest c

/-- Function `DocumentCollection::compute_chunk_weight`.  `n` is
`collection_digests.len()`, `count` the looked-up corpus count. -/
noncomputable def compute_chunk_weight (cd : List (Nat × Nat)) (chunk frequency : Nat) :
    Option ℝ :=
  if frequency = 0 then none
  else
    match lookupKey cd chunk with
    | none => none
    | some value =>
      if 0 < value ∧ 0 < frequency then
        some (Real.logb 10 ((cd.length : ℝ) / (value : ℝ)) *
          Real.logb 10 (1 + (frequency : ℝ)))
      else none

/-- Function `DocumentCollection::compute_document_digest`: map every
`(chunk, count)` of the document frequency map through
`compute_chunk_weight` and keep the `Some` results. -/
noncomputable def compute_document_digest (cd : List (Nat × Nat)) (doc : List Nat) :
    List (Nat × ℝ) :=
  (compute_document_frequencies doc).filterMap
    (fun p => (compute_chunk_weight cd p.1 p.2).map (fun w => (p.1, w)))

/-- Keys of an association list. -/
def keysOf (l : List (Nat × Nat)) : List Nat := l.map Prod.fst

theorem insertIncr_keys_mem (l : List (Nat × Nat)) (c a : Nat)
    (h : a ∈ keysOf (insertIncr l c)) : a ∈ keysOf l ∨ a = c := by
  induction l with
  | nil => simp [insertIncr, keysOf] at h; tauto
  | cons p rest ih =>
    obtain ⟨k, v⟩ := p
    unfold insertIncr at h
    by_cases h1 : c < k
    · rw [if_pos h1] at h
      simp only [keysOf, List.map_cons, List.mem_cons] at h ⊢
      tauto
    · rw [if_neg h1] at h
      by_cases h2 : c = k
      · rw [if_pos h2] at h
        simp only [keysOf, List.map_cons, List.mem_cons] at h ⊢
        tauto
      · rw [if_neg h2] at h
        simp only [keysOf, List.map_cons, List.mem_cons] at h ⊢
        rcases h with rfl | h
        · tauto
        · rcases ih h with h | h <;> tauto

theorem insertIncr_keys_sorted (l : List (Nat × Nat)) (c : Nat)
    (hs : (keysOf l).Pairwise (· < ·)) :
    (keysOf (insertIncr l c)).Pairwise (· < ·) := by
  induction l with
  | nil => simp [insertIncr, keysOf]
  | cons p rest ih =>
    obtain ⟨k, v⟩ := p
    simp only [keysOf, List.map_cons, List.pairwise_cons] at hs
    obtain ⟨hk, hrest⟩ := hs
    unfold insertIncr
    by_cases h1 : c < k
    · rw [if_pos h1]
      simp only [keysOf, List.map_cons, List.pairwise_cons]
      refine ⟨?_, hk, hrest⟩
      intro a ha
      simp only [List.mem_cons] at ha
      rcases ha with rfl | ha
      · exact h1
      · exact lt_trans h1 (hk a ha)
    · rw [if_neg h1]
      by_cases h2 : c = k
      · rw [if_pos h2]
        simp only [keysOf, List.map_cons, List.pairwise_cons]
        exact ⟨hk, hrest⟩
      · rw [if_neg h2]
        simp only [keysOf, List.map_cons, List.pairwise_cons]
        constructor
        · intro a ha
          have : a ∈ keysOf (insertIncr rest c) := by
            simpa [keysOf] using ha
          have hmem : a ∈ keysOf rest ∨ a = c := by
            have := insertIncr_keys_mem rest c a this
            tauto
          rcases hmem with hmem | rfl
          · exact hk a (by simpa [keysOf] using hmem)
          · omega
        · exact ih hrest


theorem lookupKey_nil (c : Nat) : lookupKey [] c = none := rfl

theorem lookupKey_cons (k v : Nat) (rest : List (Nat × Nat)) (c : Nat) :
    lookupKey ((k, v) :: rest) c = if c = k then some v else lookupKey rest c := rfl

theorem lookupKey_eq_none_of_not_mem (l : List (Nat × Nat)) (c : Nat)
    (h : c ∉ keysOf l) : lookupKey l c = none := by
  induction l with
  | nil => rfl
  | cons p rest ih =>
    obtain ⟨k, v⟩ := p
    simp only [keysOf, List.map_cons, List.mem_cons] at h
    push_neg at h
    rw [lookupKey_cons, if_neg h.1]
    exact ih (by simpa [keysOf] using h.2)

theorem insertIncr_lookupKey (l : List (Nat × Nat)) (c : Nat)
    (hs : (keysOf l).Pairwise (· < ·)) (k : Nat) :
    lookupKey (insertIncr l c) k =
      if k = c then some ((lookupKey l k).getD 0 + 1) else lookupKey l k := by
  induction l with
  | nil =>
    by_cases hk : k = c
    · subst hk; simp [insertIncr, lookupKey]
    · simp [insertIncr, lookupKey, hk]
  | cons p rest ih =>
    obtain ⟨k0, v⟩ := p
    simp only [keysOf, List.map_cons, List.pairwise_cons] at hs
    obtain ⟨hk0, hrest⟩ := hs
    unfold insertIncr
    by_cases h1 : c < k0
    · rw [if_pos h1]
      by_cases hk : k = c
      · subst hk
        rw [if_pos rfl, lookupKey_cons, if_pos rfl, lookupKey_cons,
          if_neg (by omega : ¬ k = k0)]
        have h3 : lookupKey rest k = none := by
          apply lookupKey_eq_none_of_not_mem
          intro hmem
          have := hk0 k (by simpa [keysOf] using hmem)
          omega
        rw [h3]
        rfl
      · rw [if_neg hk, lookupKey_cons, if_neg hk]
    · rw [if_neg h1]
      by_cases h2 : c = k0
      · subst h2
        rw [if_pos rfl]
        by_cases hk : k = c
        · subst hk
          rw [if_pos rfl, lookupKey_cons, if_pos rfl, lookupKey_cons, if_pos rfl]
          rfl
        · rw [if_neg hk, lookupKey_cons, if_neg hk, lookupKey_cons, if_neg hk]
      · rw [if_neg h2]
        by_cases hk : k = k0
        · subst hk
          rw [lookupKey_cons, if_pos rfl, lookupKey_cons, if_pos rfl,
            if_neg (fun h => h2 h.symm)]
        · rw [lookupKey_cons, if_neg hk, lookupKey_cons, if_neg hk, ih hrest]

theorem cdf_sorted_aux (doc : List Nat) :
    ∀ acc : List (Nat × Nat), (keysOf acc).Pairwise (· < ·) →
      (keysOf (doc.foldl insertIncr acc)).Pairwise (· < ·) := by
  induction doc with
  | nil => intro acc hs; exact hs
  | cons b doc ih =>
    intro acc hs
    exact ih (insertIncr acc b) (insertIncr_keys_sorted acc b hs)

theorem cdf_sorted (doc : List Nat) :
    (keysOf (compute_document_frequencies doc)).Pairwise (· < ·) :=
  cdf_sorted_aux doc [] (by simp [keysOf])

theorem cdf_lookupKey_aux (doc : List Nat) :
    ∀ acc : List (Nat × Nat), (keysOf acc).Pairwise (· < ·) → ∀ k : Nat,
      lookupKey (doc.foldl insertIncr acc) k =
        if k ∈ doc ∨ (lookupKey acc k).isSome then
          some ((lookupKey acc k).getD 0 + doc.count k)
        else none := by
  induction doc with
  | nil =>
    intro acc hs k
    simp only [List.foldl_nil, List.not_mem_nil, List.count_nil, false_or]
    rcases hl : lookupKey acc k with _ | v
    · simp [hl]
    · simp [hl]
  | cons b doc ih =>
    intro acc hs k
    rw [List.foldl_cons, ih (insertIncr acc b) (insertIncr_keys_sorted acc b hs) k]
    rw [insertIncr_lookupKey acc b hs k]
    by_cases hk : k = b
    · subst hk
      rw [if_pos rfl]
      rw [if_pos (Or.inr (by simp)), if_pos (Or.inl (List.mem_cons_self _ _))]
      have : (k :: doc).count k = doc.count k + 1 := by
        simp [List.count_cons]
      rw [this, Option.getD_some]
      congr 1
      omega
    · rw [if_neg hk]
      have hmem : (k ∈ b :: doc) ↔ (k ∈ doc) := by
        simp [List.mem_cons, hk]
      have hcnt : (b :: doc).count k = doc.count k := by
        simp [List.count_cons, hk]
      rw [hcnt]
      by_cases hc : k ∈ doc ∨ (lookupKey acc k).isSome
      · rw [if_pos hc, if_pos (by tauto)]
      · rw [if_neg hc, if_neg (by rw [hmem]; tauto)]

theorem cdf_lookupKey (doc : List Nat) (k : Nat) :
    lookupKey (compute_document_frequencies doc) k =
      if k ∈ doc then some (doc.count k) else none := by
  have := cdf_lookupKey_aux doc [] (by simp [keysOf]) k
  simpa [compute_document_frequencies, lookupKey] using this

theorem mem_of_lookupKey_eq_some (l : List (Nat × Nat)) (c f : Nat)
    (h : lookupKey l c = some f) : (c, f) ∈ l := by
  induction l with
  | nil => simp [lookupKey] at h
  | cons p rest ih =>
    obtain ⟨k, v⟩ := p
    rw [lookupKey_cons] at h
    by_cases hk : c = k
    · rw [if_pos hk] at h
      have hv : v = f := by injection h
      subst hk
      subst hv
      exact List.mem_cons_self _ _
    · rw [if_neg hk] at h
      exact List.mem_cons_of_mem _ (ih h)

theorem lookupKey_eq_some_of_mem (l : List (Nat × Nat)) (c f : Nat)
    (hs : (keysOf l).Pairwise (· < ·)) (h : (c, f) ∈ l) :
    lookupKey l c = some f := by
  induction l with
  | nil => simp at h
  | cons p rest ih =>
    obtain ⟨k, v⟩ := p
    simp only [keysOf, List.map_cons, List.pairwise_cons] at hs
    obtain ⟨hk0, hrest⟩ := hs
    rcases List.mem_cons.mp h with heq | hmem
    · cases heq
      rw [lookupKey_cons, if_pos rfl]
    · have hck : c ≠ k := by
        have : k < c := hk0 c (by
          simp only [keysOf, List.mem_map]
          exact ⟨(c, f), hmem, rfl⟩)
        omega
      rw [lookupKey_cons, if_neg hck]
      exact ih hrest hmem

theorem mem_cdf_iff (doc : List Nat) (c f : Nat) :
    (c, f) ∈ compute_document_frequencies doc ↔ c ∈ doc ∧ f = doc.count c := by
  constructor
  · intro h
    have hl := lookupKey_eq_some_of_mem _ c f (cdf_sorted doc) h
    rw [cdf_lookupKey] at hl
    by_cases hc : c ∈ doc
    · rw [if_pos hc] at hl
      exact ⟨hc, by simpa using hl.symm⟩
    · rw [if_neg hc] at hl
      exact absurd hl (by simp)
  · rintro ⟨hc, rfl⟩
    apply mem_of_lookupKey_eq_some
    rw [cdf_lookupKey, if_pos hc]

theorem compute_chunk_weight_eq_some (cd : List (Nat × Nat)) (chunk f : Nat) (w : ℝ) :
    compute_chunk_weight cd chunk f = some w ↔
      0 < f ∧ ∃ v, lookupKey cd chunk = some v ∧ 0 < v ∧
        w = Real.logb 10 ((cd.length : ℝ) / (v : ℝ)) * Real.logb 10 (1 + (f : ℝ)) := by
  unfold compute_chunk_weight
  by_cases hf : f = 0
  · subst hf
    simp
  · rw [if_neg hf]
    rcases hlk : lookupKey cd chunk with _ | v
    · simp only [hlk]
      constructor
      · intro h
        exact absurd h (by simp)
      · rintro ⟨_, v, hv, _⟩
        exact absurd hv (by simp)
    · simp only [hlk]
      by_cases hv : 0 < v ∧ 0 < f
      · rw [if_pos hv]
        constructor
        · intro h
          have := Option.some.inj h
          exact ⟨Nat.pos_of_ne_zero hf, v, rfl, hv.1, this.symm⟩
        · rintro ⟨hf', v', hv', hv'', rfl⟩
          have hvv : v' = v := by injection hv' with h; exact h.symm
          subst hvv
          rfl
      · rw [if_neg hv]
        constructor
        · intro h
          exact absurd h (by simp)
        · rintro ⟨hf', v', hv', hv'', rfl⟩
          have hvv : v' = v := by injection hv' with h; exact h.symm
          subst hvv
          exact absurd ⟨hv'', Nat.pos_of_ne_zero hf⟩ hv

theorem mem_digest_iff (cd : List (Nat × Nat)) (doc : List Nat) (c : Nat) (w : ℝ) :
    (c, w) ∈ compute_document_digest cd doc ↔
      c ∈ doc ∧ ∃ v, lookupKey cd c = some v ∧ 0 < v ∧
        w = Real.logb 10 ((cd.length : ℝ) / (v : ℝ)) *
          Real.logb 10 (1 + (doc.count c : ℝ)) := by
  unfold compute_document_digest
  rw [List.mem_filterMap]
  constructor
  · rintro ⟨⟨c', f⟩, hmem, heq⟩
    rcases hcw : compute_chunk_weight cd c' f with _ | w'
    · rw [hcw] at heq
      exact absurd heq (by simp)
    · rw [hcw] at heq
      simp only [Option.map_some'] at heq
      injection heq with heq2
      cases heq2
      obtain ⟨hcdoc, hf⟩ := (mem_cdf_iff doc c f).mp hmem
      subst hf
      obtain ⟨_, v, hv, hv0, hw⟩ := (compute_chunk_weight_eq_some cd c _ w).mp hcw
      exact ⟨hcdoc, v, hv, hv0, hw⟩
  · rintro ⟨hcdoc, v, hv, hv0, hw⟩
    refine ⟨(c, doc.count c), (mem_cdf_iff doc c _).mpr ⟨hcdoc, rfl⟩, ?_⟩
    have hcw : compute_chunk_weight cd c (doc.count c) = some w :=
      (compute_chunk_weight_eq_some cd c _ w).mpr
        ⟨List.count_pos_iff.mpr hcdoc, v, hv, hv0, hw⟩
    rw [hcw]
    rfl

theorem digest_keys_sublist_aux (g : Nat → Nat → Option ℝ) (l : List (Nat × Nat)) :
    ((l.filterMap (fun p => (g p.1 p.2).map (fun w => (p.1, w)))).map Prod.fst).Sublist
      (l.map Prod.fst) := by
  induction l with
  | nil => simp
  | cons p rest ih =>
    rcases hg : g p.1 p.2 with _ | w
    · simp only [List.filterMap_cons, hg, Option.map_none', List.map_cons]
      exact ih.cons _
    · simp only [List.filterMap_cons, hg, Option.map_some', List.map_cons]
      exact ih.cons₂ _

theorem digest_keys_sorted (cd : List (Nat × Nat)) (doc : List Nat) :
    ((compute_document_digest cd doc).map Prod.fst).Pairwise (· < ·) := by
  have hsub := digest_keys_sublist_aux (fun c f => compute_chunk_weight cd c f)
    (compute_document_frequencies doc)
  exact (cdf_sorted doc).sublist hsub

/-! ## Documents, cosine similarity and ranked search (`similarities.rs`) -/

/-- Structure `Document` from similarities.rs; `digest` holds `(chunk, weight)` pairs. -/
structure Document where
  file : String
  chunks : List Nat
  digest : List (Nat × ℝ)

/-- The `impl PartialEq for Document`: equality is by `file` alone. -/
def documentEq (d1 d2 : Document) : Bool := d1.file == d2.file

/-- In `cosine_similarity`, the `collect()` of
`vec1.iter().map(|(k, v)| (*k, (Some(*v), None)))` into a `BTreeMap`:
key-ordered insert overwriting the whole value on an existing key. -/
def insertFst : List (Nat × (Option ℝ × Option ℝ)) → Nat → ℝ →
    List (Nat × (Option ℝ × Option ℝ))
  | [], k, v => [(k, (some v, none))]
  | (k', p) :: rest, k, v =>
    if k < k' then (k, (some v, none)) :: (k', p) :: rest
    else if k = k' then (k', (some v, none)) :: rest
    else (k', p) :: insertFst rest k v

/-- In `cosine_similarity`, one
`coll.entry(*k).and_modify(|e| e.1 = Some(*v)).or_insert((None, Some(*v)))`
step for an element of `vec2`. -/
def insertSnd : List (Nat × (Option ℝ × Option ℝ)) → Nat → ℝ →
    List (Nat × (Option ℝ × Option ℝ))
  | [], k, v => [(k, (none, some v))]
  | (k', p) :: rest, k, v =>
    if k < k' then (k, (none, some v)) :: (k', p) :: rest
    else if k = k' then (k', (p.1, some v)) :: rest
    else (k', p) :: insertSnd rest k v

/-- The `(norm_a, norm_b, norm_prod)` fold body of `cosine_similarity`.
The `(none, none)` case never occurs (every inserted entry carries at
least one `some`); Rust would panic there, the model leaves the
accumulator unchanged. -/
def cosineStep (acc : ℝ × ℝ × ℝ) (p : Nat × (Option ℝ × Option ℝ)) : ℝ × ℝ × ℝ :=
  match p.2 with
  | (some x, some y) => (acc.1 + x * x, acc.2.1 + y * y, acc.2.2 + x * y)
  | (some x, none) => (acc.1 + x * x, acc.2.1, acc.2.2)
  | (none, some y) => (acc.1, acc.2.1 + y * y, acc.2.2)
  | (none, none) => acc

/-- Function `cosine_similarity` from similarities.rs, including its early-return
branch for empty vectors (whose condition `vec1.len() == vec1.len()` is
taken verbatim from the source). -/
noncomputable def cosine_similarity (vec1 vec2 : List (Nat × ℝ)) : ℝ :=
  if vec1.isEmpty || vec2.isEmpty then
    if vec1.length == vec1.length then 0 else 1
  else
    let coll := vec2.foldl (fun c p => insertSnd c p.1 p.2)
      (vec1.foldl (fun c p => insertFst c p.1 p.2) [])
    let t := coll.foldl cosineStep ((0 : ℝ), (0 : ℝ), (0 : ℝ))
    t.2.2 / (Real.sqrt t.1 * Real.sqrt t.2.1)

/-- Function `cosine_distance`, that is `1 - cosine_similarity`. -/
noncomputable def cosine_distance (vec1 vec2 : List (Nat × ℝ)) : ℝ :=
  1 - cosine_similarity vec1 vec2

/-- Function `ranked_search`: insert every database document with its cosine
distance to the query digest into a capacity-`k` heap, then return
`get_elements` (ascending by score). -/
noncomputable def ranked_search (doc : List (Nat × ℝ)) (documents : List Document)
    (k : Nat) : List (ℝ × Document) :=
  (documents.foldl
    (fun q other => q.insert (cosine_distance other.digest doc) other)
    (Heap.new k : Heap ℝ Document)).get_elements

/-! ## Query pipeline (`src/fbhash/query.rs`) -/

/-- The `results.sort_by(...)` comparator of `query_for_results` as a
total order: ascending score, ties broken by ascending file path. -/
noncomputable def query_sorted (results : List (ℝ × Document)) : List (ℝ × Document) :=
  results.insertionSort (fun a b => a.1 < b.1 ∨ (a.1 = b.1 ∧ a.2.file ≤ b.2.file))

/-- The result list printed by `query_for_results` for one query file:
`ranked_search`, then the sort by `(score, file)`, then `results.reverse()`. -/
noncomputable def query_results (query : List (Nat × ℝ)) (documents : List Document)
    (k : Nat) : List (ℝ × Document) :=
  (query_sorted (ranked_search query documents k)).reverse

/-- Structure `DocumentCollection` as seen by the query pipeline. -/
structure DocumentCollection where
  files : List String
  collection_digests : List (Nat × Nat)

/-- Function `DocumentCollection::exists_file`. -/
def exists_file (dc : DocumentCollection) (name : String) : Bool :=
  dc.files.contains name

/-- Function `verify_consistency` from query.rs: every model path occurs among the
document `file` fields and conversely. -/
def verify_consistency (dc : DocumentCollection) (documents : List Document) : Bool :=
  dc.files.all (fun f => (documents.map Document.file).contains f) &&
    documents.all (fun d => exists_file dc d.file)

/-- Function `open_state_and_database` after deserialization succeeded: the
consistency gate.  On mismatch it builds the
`"{state} and {database} are not consistent"` invalid-input error;
otherwise it returns the loaded state unchanged. -/
def open_state_and_database (state_path database_path : String)
    (dc : DocumentCollection) (documents : List Document) :
    Except String (DocumentCollection × List Document) :=
  if !verify_consistency dc documents then
    Except.error (state_path ++ " and " ++ database_path ++ " are not consistent")
  else
    Except.ok (dc, documents)

theorem verify_consistency_iff (dc : DocumentCollection) (docs : List Document) :
    verify_consistency dc docs = true ↔
      (∀ f, f ∈ dc.files ↔ f ∈ docs.map Document.file) := by
  unfold verify_consistency exists_file
  rw [Bool.and_eq_true, List.all_eq_true, List.all_eq_true]
  constructor
  · rintro ⟨h1, h2⟩ f
    constructor
    · intro hf
      have := h1 f hf
      simpa using this
    · intro hf
      obtain ⟨d, hd, rfl⟩ := List.mem_map.mp hf
      have := h2 d hd
      simpa using this
  · intro hall
    constructor
    · intro f hf
      simpa using (hall f).mp hf
    · intro d hd
      have : d.file ∈ docs.map Document.file := List.mem_map.mpr ⟨d, hd, rfl⟩
      simpa using (hall d.file).mpr this

/-! ## Claim theorems -/

/-- C1: for every 7-byte window (any bytes `b0..b6`, `b0` oldest) whose
digest was produced by the chunker — i.e. equals the direct polynomial
digest of that window — and every incoming byte, the incremental rolling
update `rehash_digest` (with its u64 wrapping arithmetic) produces
bit-for-bit the same value as the direct polynomial formula
`compute_digest` applied to the shifted window.  `window.headD 0` is the
dropped byte `content[0]` and `window.tail ++ [bnew]` the new window, as
in `ChunkContent::update`. -/
theorem rolling_rehash_agrees_with_direct (window : List Nat) (bnew : Nat)
    (hlen : window.length = CHUNK_SIZE) (hb : ∀ x ∈ window, x < 256)
    (hnew : bnew < 256) :
    rehash_digest (compute_digest window) (window.headD 0) bnew =
      compute_digest (window.tail ++ [bnew]) := by
  match window, hlen with
  | b0 :: rest, hlen =>
    have hrest : rest.length = 6 := by
      simpa [CHUNK_SIZE] using congrArg (· - 1) hlen
    exact rolling_update_eq_direct b0 rest bnew
      (hb b0 (List.mem_cons_self _ _))
      (fun x hx => hb x (List.mem_cons_of_mem _ hx)) hnew hrest

/-- Witness for C1 at the concrete window `[1,2,3,4,5,6,7]` and new
byte `8`. -/
theorem rolling_rehash_agrees_with_direct_witness :
    rehash_digest (compute_digest [1, 2, 3, 4, 5, 6, 7]) 1 8 =
      compute_digest [2, 3, 4, 5, 6, 7, 8] :=
  rolling_rehash_agrees_with_direct [1, 2, 3, 4, 5, 6, 7] 8
    (by decide) (by decide) (by decide)

/-- C4: for an input stream of length `L`, the chunker yields
`L - W + 1` chunks when `L ≥ W`; exactly one chunk over the zero-padded
bytes when `0 < L < W`; and exactly one chunk with digest 0 when
`L = 0`. -/
theorem chunker_chunk_counts (file : List Nat) :
    (CHUNK_SIZE ≤ file.length →
      (runChunker file).length = file.length - CHUNK_SIZE + 1) ∧
    (0 < file.length → file.length < CHUNK_SIZE →
      runChunker file =
        [(0, compute_digest (file ++ List.replicate (CHUNK_SIZE - file.length) 0))]) ∧
    (file.length = 0 → runChunker file = [(0, 0)]) := by
  refine ⟨?_, ?_, ?_⟩
  · intro h
    rw [runChunker_length]
    omega
  · intro h0 h7
    have hdrop : file.drop CHUNK_SIZE = [] :=
      List.drop_eq_nil_of_le (by omega)
    unfold runChunker
    rw [hdrop, initWindow_of_short file (by omega)]
    rfl
  · intro h0
    have hfile : file = [] := List.length_eq_zero.mp h0
    subst hfile
    decide

/-- Witness for C4: a file of 8 bytes yields 2 chunks, a 1-byte file
yields one zero-padded chunk, the empty file yields `[(0, 0)]`. -/
theorem chunker_chunk_counts_witness :
    (runChunker [1, 2, 3, 4, 5, 6, 7, 8]).length = 2 ∧
    runChunker [9] = [(0, compute_digest ([9] ++ List.replicate 6 0))] ∧
    runChunker [] = [(0, 0)] := by
  refine ⟨?_, ?_, ?_⟩
  · have h := (chunker_chunk_counts [1, 2, 3, 4, 5, 6, 7, 8]).1 (by decide)
    simpa using h
  · have h := (chunker_chunk_counts [9]).2.1 (by decide) (by decide)
    simpa [CHUNK_SIZE] using h
  · exact (chunker_chunk_counts []).2.2 rfl

/-- C8: `cosine_similarity` returns exactly 0 whenever either input
vector is empty — including when both are (the source's guard
`vec1.len() == vec1.len()` is identically true, so the early return is
always 0). -/
theorem cosine_similarity_empty (vec1 vec2 : List (Nat × ℝ))
    (h : (vec1.isEmpty || vec2.isEmpty) = true) :
    cosine_similarity vec1 vec2 = 0 := by
  unfold cosine_similarity
  rw [if_pos h]
  simp

/-- Witness for C8 at the three concrete shapes: left empty, right empty,
both empty. -/
theorem cosine_similarity_empty_witness :
    cosine_similarity [] [(0, (1 : ℝ))] = 0 ∧
    cosine_similarity [(0, (1 : ℝ))] [] = 0 ∧
    cosine_similarity ([] : List (Nat × ℝ)) [] = 0 :=
  ⟨cosine_similarity_empty _ _ rfl, cosine_similarity_empty _ _ rfl,
    cosine_similarity_empty _ _ rfl⟩

/-- C9: the number of stored elements never exceeds `max k 1`: inserts
beyond the capacity replace rather than grow, but a heap of capacity 0
still accepts and keeps one element (the `len() == 0` fast path pushes
unconditionally), so the bound `k` itself holds only for `k ≥ 1`. -/
theorem heap_size_bound :
    (∀ (k : Nat) (xs : List (ℚ × Unit)),
      (Heap.insertAll (Heap.new k) xs).data.length ≤ max k 1) ∧
    (∀ s : ℚ, ((Heap.new 0 : Heap ℚ Unit).insert s ()).data.length = 1) := by
  constructor
  · intro k xs
    have h := Heap.insertAll_length_le xs (Heap.new k) (by simp [Heap.new])
    simpa [Heap.new] using h
  · intro s
    rw [Heap.insert_length]
    simp [Heap.new]

/-- C10: `Document` equality is equality of the `file` field alone; the
`chunks` and `digest` fields are ignored, so two documents with the same
path but different chunk lists and digests compare equal. -/
theorem document_eq_iff_file_eq :
    (∀ d1 d2 : Document, documentEq d1 d2 = true ↔ d1.file = d2.file) ∧
    (∃ d1 d2 : Document, d1.file = d2.file ∧ d1.chunks ≠ d2.chunks ∧
      d1.digest ≠ d2.digest ∧ documentEq d1 d2 = true) := by
  constructor
  · intro d1 d2
    simp [documentEq]
  · exact ⟨⟨"x", [0], [(0, 1)]⟩, ⟨"x", [], []⟩, rfl, by simp, by simp,
      by simp [documentEq]⟩

/-- C6: `open_state_and_database` returns an invalid-input error whose
message cites both the state path and the database path exactly when the
set of paths in the model differs from the set of `file` fields of the
documents; when the two sets agree it returns the model and documents
unchanged. -/
theorem open_state_consistency (sp dp : String) (dc : DocumentCollection)
    (docs : List Document) :
    ((∃ msg, open_state_and_database sp dp dc docs = Except.error msg ∧
        (∃ t, msg = sp ++ t) ∧ (∃ u v, msg = u ++ (dp ++ v))) ↔
      ¬ (∀ f, f ∈ dc.files ↔ f ∈ docs.map Document.file)) ∧
    ((∀ f, f ∈ dc.files ↔ f ∈ docs.map Document.file) →
      open_state_and_database sp dp dc docs = Except.ok (dc, docs)) := by
  by_cases hv : verify_consistency dc docs = true
  · have hok : open_state_and_database sp dp dc docs = Except.ok (dc, docs) := by
      unfold open_state_and_database
      rw [hv]
      rfl
    refine ⟨⟨?_, ?_⟩, fun _ => hok⟩
    · rintro ⟨msg, hmsg, _⟩
      rw [hok] at hmsg
      exact absurd hmsg (by simp)
    · intro hns
      exact absurd ((verify_consistency_iff dc docs).mp hv) hns
  · have hvf : verify_consistency dc docs = false := by
      simpa using hv
    have herr : open_state_and_database sp dp dc docs =
        Except.error (sp ++ " and " ++ dp ++ " are not consistent") := by
      unfold open_state_and_database
      rw [hvf]
      rfl
    refine ⟨⟨?_, ?_⟩, ?_⟩
    · intro _
      intro hall
      exact hv ((verify_consistency_iff dc docs).mpr hall)
    · intro _
      refine ⟨sp ++ " and " ++ dp ++ " are not consistent", herr,
        ⟨" and " ++ dp ++ " are not consistent", ?_⟩,
        ⟨sp ++ " and ", " are not consistent", ?_⟩⟩
      · simp [String.append_assoc]
      · simp [String.append_assoc]
    · intro hall
      exact absurd ((verify_consistency_iff dc docs).mpr hall) hv

/-- Witness for C6: a matching pair is returned unchanged; a mismatched
pair produces the error citing both paths. -/
theorem open_state_consistency_witness :
    open_state_and_database "s.json" "d.json" ⟨["a"], []⟩ [⟨"a", [], []⟩] =
      Except.ok (⟨["a"], []⟩, [⟨"a", [], []⟩]) ∧
    ¬ (∀ f, f ∈ (⟨["b"], []⟩ : DocumentCollection).files ↔
        f ∈ ([⟨"a", [], []⟩] : List Document).map Document.file) := by
  constructor
  · exact (open_state_consistency "s.json" "d.json" ⟨["a"], []⟩ [⟨"a", [], []⟩]).2
      (by intro f; simp)
  · exact ((open_state_consistency "s.json" "d.json" ⟨["b"], []⟩ [⟨"a", [], []⟩]).1).mp
      ⟨"s.json and d.json are not consistent", rfl,
        ⟨" and d.json are not consistent", rfl⟩,
        ⟨"s.json and ", " are not consistent", rfl⟩⟩

/-- C3: `compute_document_digest` emits pairs in strictly ascending chunk
order (hence exactly one pair per surviving distinct chunk), and a pair
`(c, w)` is emitted iff `c` occurs in the document (`freq = doc.count c
> 0`), `c` is present in the corpus model with count `C = v > 0`, and
`w = log10(N / C) * log10(1 + freq)` with `N = |chunk_counts|`.  In this
real-number semantics `w` is always a (finite) real, so the claim's
"`w` is not finite" drop clause never fires — consistent with the iff. -/
theorem digest_builder_characterization (cd : List (Nat × Nat)) (doc : List Nat) :
    ((compute_document_digest cd doc).map Prod.fst).Pairwise (· < ·) ∧
    (∀ (c : Nat) (w : ℝ), (c, w) ∈ compute_document_digest cd doc ↔
      (c ∈ doc ∧ ∃ v, lookupKey cd c = some v ∧ 0 < v ∧
        w = Real.logb 10 ((cd.length : ℝ) / (v : ℝ)) *
          Real.logb 10 (1 + (doc.count c : ℝ)))) :=
  ⟨digest_keys_sorted cd doc, fun c w => mem_digest_iff cd doc c w⟩

/-- A concrete digest membership shared by the witnesses below: with the
corpus model `{5 ↦ 1}` and the document `[5]`, the single surviving pair
carries `w = log10(1/1)·log10(2)`. -/
theorem digest_example_mem :
    (5, Real.logb 10 ((1 : ℝ) / (1 : ℝ)) * Real.logb 10 (1 + (1 : ℝ))) ∈
      compute_document_digest [(5, 1)] [5] := by
  apply (mem_digest_iff [(5, 1)] [5] 5 _).mpr
  refine ⟨by simp, 1, by simp [lookupKey], by omega, ?_⟩
  norm_num

/-- C7: every `(chunk, weight)` pair of an emitted digest comes from a
chunk present in the model with count `v ≥ 1`, occurring `freq ≥ 1` times
in the document, in a model with `N ≥ 1` entries; both `log10` arguments
`N / v` and `1 + freq` are therefore strictly positive (the second even
`> 1`).  Under IEEE `f64` semantics `log10` of a positive finite value is
finite (magnitude below 309) and the product of two such values cannot
overflow, so the emitted weight is never NaN and never `±∞`: entries that
would take `log10` of 0 (absent chunk, `C = 0` or `freq = 0`) are dropped
before the digest is emitted. -/
theorem digest_weights_finite (cd : List (Nat × Nat)) (doc : List Nat)
    (c : Nat) (w : ℝ) (h : (c, w) ∈ compute_document_digest cd doc) :
    ∃ v : Nat, lookupKey cd c = some v ∧ 1 ≤ v ∧ 1 ≤ doc.count c ∧
      1 ≤ cd.length ∧ 0 < (cd.length : ℝ) / (v : ℝ) ∧
      (1 : ℝ) < 1 + (doc.count c : ℝ) ∧
      w = Real.logb 10 ((cd.length : ℝ) / (v : ℝ)) *
        Real.logb 10 (1 + (doc.count c : ℝ)) := by
  obtain ⟨hcdoc, v, hv, hv0, hw⟩ := (mem_digest_iff cd doc c w).mp h
  have hcnt : 1 ≤ doc.count c := List.count_pos_iff.mpr hcdoc
  have hne : cd ≠ [] := by
    intro hnil
    subst hnil
    simp [lookupKey] at hv
  have hlen : 1 ≤ cd.length := by
    rcases cd with _ | ⟨p, rest⟩
    · exact absurd rfl hne
    · simp
  refine ⟨v, hv, hv0, hcnt, hlen, ?_, ?_, hw⟩
  · apply div_pos
    · exact_mod_cast hlen
    · exact_mod_cast hv0
  · have : (1 : ℝ) ≤ (doc.count c : ℝ) := by exact_mod_cast hcnt
    linarith

/-- Witness for C7 at the corpus model `{5 ↦ 1}` and document `[5]`. -/
theorem digest_weights_finite_witness :
    ∃ v : Nat, lookupKey [(5, 1)] 5 = some v ∧ 1 ≤ v ∧ 1 ≤ List.count 5 [5] ∧
      1 ≤ List.length [(5, 1)] ∧ 0 < ((1 : Nat) : ℝ) / (v : ℝ) ∧
      (1 : ℝ) < 1 + ((List.count 5 [5] : Nat) : ℝ) ∧
      Real.logb 10 ((1 : ℝ) / (1 : ℝ)) * Real.logb 10 (1 + (1 : ℝ)) =
        Real.logb 10 (((1 : Nat) : ℝ) / (v : ℝ)) *
          Real.logb 10 (1 + ((List.count 5 [5] : Nat) : ℝ)) := by
  have h := digest_weights_finite [(5, 1)] [5] 5
    (Real.logb 10 ((1 : ℝ) / (1 : ℝ)) * Real.logb 10 (1 + (1 : ℝ)))
    digest_example_mem
  simpa using h

/-- C2, failing input: the rebalancing loop of `Heap::extract_max` uses
`child < self.len()` (and `child + 1 < self.len()`), so the element at the
last 1-based index `len` is never considered as a child and the max-heap
property can be lost after an eviction.  With capacity 3 and the insert
sequence 10, 20, 5, 4, 3 the heap ends up holding scores {3, 4, 10}: the
insert of 4 evicts 20 but leaves 5 at the root above 10, and the insert
of 3 then evicts 5 instead of the larger 10.  The three smallest scores
ever inserted are {3, 4, 5}. -/
theorem heap_drops_wrong_element :
    ((Heap.insertAll (Heap.new 3 : Heap ℚ Unit)
        [(10, ()), (20, ()), (5, ()), (4, ()), (3, ())]).get_elements.map Prod.fst =
      [3, 4, 10]) ∧
    ([(10 : ℚ), 20, 5, 4, 3].insertionSort (· ≤ ·)).take 3 = [3, 4, 5] := by
  constructor
  · decide
  · decide

/-- Cosine similarity of the one-entry vector `{0 ↦ 1}` with itself is 1
(the merged map is `{0 ↦ (Some 1, Some 1)}`, giving sums (1, 1, 1)). -/
theorem cosine_same : cosine_similarity [(0, (1 : ℝ))] [(0, (1 : ℝ))] = 1 := by
  unfold cosine_similarity
  rw [if_neg (by simp)]
  show (0 + 1 * 1 : ℝ) / (Real.sqrt (0 + 1 * 1) * Real.sqrt (0 + 1 * 1)) = 1
  norm_num

/-- Cosine similarity of `{1 ↦ 1}` with `{0 ↦ 1}` is 0 (disjoint keys,
zero dot product). -/
theorem cosine_disjoint : cosine_similarity [(1, (1 : ℝ))] [(0, (1 : ℝ))] = 0 := by
  unfold cosine_similarity
  rw [if_neg (by simp)]
  show (0 : ℝ) / (Real.sqrt (0 + 1 * 1) * Real.sqrt (0 + 1 * 1)) = 0
  norm_num

/-- C5, failing input: `query_for_results` sorts ascending by score —
which is the cosine *distance* — breaks ties by file path, then calls
`results.reverse()`.  Reversing an ascending-distance list puts the
LARGEST distance first: for the query digest `{0 ↦ 1}` and a database
with document "a" at distance 1 and document "b" at distance 0, the
printed list starts with ("a", distance 1) and ends with the best match
("b", distance 0) — the spec's "best match first" (and the in-code
comment "Get the best results first") is violated. -/
theorem query_prints_worst_first :
    query_results [(0, (1 : ℝ))]
      [⟨"a", [], [(1, 1)]⟩, ⟨"b", [], [(0, 1)]⟩] 5 =
      [((1 : ℝ), ⟨"a", [], [(1, 1)]⟩), ((0 : ℝ), ⟨"b", [], [(0, 1)]⟩)] ∧
    cosine_distance [(0, (1 : ℝ))] [(0, (1 : ℝ))] = 0 ∧
    cosine_distance [(1, (1 : ℝ))] [(0, (1 : ℝ))] = 1 ∧
    (0 : ℝ) < 1 := by
  have hdB : cosine_distance [(0, (1 : ℝ))] [(0, (1 : ℝ))] = 0 := by
    unfold cosine_distance
    rw [cosine_same]
    norm_num
  have hdA : cosine_distance [(1, (1 : ℝ))] [(0, (1 : ℝ))] = 1 := by
    unfold cosine_distance
    rw [cosine_disjoint]
    norm_num
  refine ⟨?_, hdB, hdA, by norm_num⟩
  unfold query_results query_sorted ranked_search
  rw [List.foldl_cons, List.foldl_cons, List.foldl_nil]
  dsimp only
  rw [hdA, hdB]
  have h1 : (Heap.new 5 : Heap ℝ Document).insert 1 ⟨"a", [], [(1, 1)]⟩ =
      ⟨[((1 : ℝ), ⟨"a", [], [(1, 1)]⟩)], 5⟩ := rfl
  rw [h1]
  have hsift : Heap.siftUp
      [((1 : ℝ), (⟨"a", [], [(1, 1)]⟩ : Document)), ((0 : ℝ), ⟨"b", [], [(0, 1)]⟩)] 2 2 =
      [((1 : ℝ), (⟨"a", [], [(1, 1)]⟩ : Document)), ((0 : ℝ), ⟨"b", [], [(0, 1)]⟩)] := by
    simp only [Heap.siftUp]
    rw [if_neg]
    intro hcond
    have hc := hcond.2
    simp [Heap.at_idx] at hc
    norm_num at hc
  have h2 : (⟨[((1 : ℝ), ⟨"a", [], [(1, 1)]⟩)], 5⟩ : Heap ℝ Document).insert 0
      ⟨"b", [], [(0, 1)]⟩ =
      ⟨[((1 : ℝ), ⟨"a", [], [(1, 1)]⟩), ((0 : ℝ), ⟨"b", [], [(0, 1)]⟩)], 5⟩ := by
    unfold Heap.insert
    rw [if_neg (by norm_num), if_pos (by norm_num)]
    unfold Heap.heapify
    simp only [List.cons_append, List.nil_append, List.length_cons, List.length_nil,
      Nat.reduceAdd]
    rw [hsift]
  rw [h2]
  have h3 : (⟨[((1 : ℝ), ⟨"a", [], [(1, 1)]⟩), ((0 : ℝ), ⟨"b", [], [(0, 1)]⟩)], 5⟩ :
      Heap ℝ Document).get_elements =
      [((0 : ℝ), ⟨"b", [], [(0, 1)]⟩), ((1 : ℝ), ⟨"a", [], [(1, 1)]⟩)] := by
    unfold Heap.get_elements
    simp only [List.insertionSort, List.orderedInsert]
    rw [if_neg (by norm_num)]
  rw [h3]
  have h4 : List.insertionSort
      (fun (a b : ℝ × Document) => a.1 < b.1 ∨ (a.1 = b.1 ∧ a.2.file ≤ b.2.file))
      [((0 : ℝ), ⟨"b", [], [(0, 1)]⟩), ((1 : ℝ), ⟨"a", [], [(1, 1)]⟩)] =
      [((0 : ℝ), ⟨"b", [], [(0, 1)]⟩), ((1 : ℝ), ⟨"a", [], [(1, 1)]⟩)] := by
    simp only [List.insertionSort, List.orderedInsert]
    rw [if_pos (Or.inl (by norm_num))]
  rw [h4]
  rfl

end Fbhash
